import Mathlib

/-!
Shallow embedding of the `timedmap` Go package (src/timedmap.go): a key-value
store whose entries carry an expiration timestamp, with lazy expiry on read,
explicit removal, bulk flush, per-entry expiry mutation, an entry pool, and a
background sweeper loop.

Modelling conventions:
* Keys (Go `interface{}` keys) are modelled as `Nat`; equality is decidable,
  as Go map-key comparison is.
* Values (Go `interface{}` values) are modelled as `Option Nat`, where `none`
  models the Go `nil` interface value.
* Callbacks (Go `func(interface{})`) are modelled by an identity `Option Nat`
  (`none` models a `nil` callback).  Invoking a callback is modelled by
  appending the pair (callback identity, argument value) to an event log
  carried in the state, so "fires exactly once" is a statement about the log.
* `time.Time` / `time.Duration` are modelled as `Int` (nanosecond counts);
  `time.Now()` becomes an explicit `now : Int` argument threaded through the
  operations.  Go `a.After(b)` is the strict comparison `a > b`.
* `sync.Map` is modelled as an association list `List (Nat × valueWrapper)`;
  the operations only ever store `valueWrapper` values, so the Go type
  assertion in `get` never fails and is not represented.
* `sync.Pool` is modelled as a `List valueWrapper` carried in the state:
  `Put` appends, `Get` takes the head if the list is nonempty and otherwise
  returns the `New`-allocated zero wrapper `⟨none, 0, none⟩`.
-/

namespace Timedmap

/-- Go struct `valueWrapper { val interface{}; exp time.Time; cb Callback }`. -/
structure valueWrapper where
  val : Option Nat
  exp : Int
  cb : Option Nat
deriving DecidableEq, Repr

/-- The observable state of a Go `timedMap`: the `sync.Map` contents `m`, the
`size` counter, the `sync.Pool` contents, and the log of callback invocations
(pairs of callback identity and argument value). -/
structure timedMap where
  m : List (Nat × valueWrapper)
  size : Int
  pool : List valueWrapper
  events : List (Nat × Option Nat)
deriving DecidableEq, Repr

/-- Modelled from the spec: the single error kind `KeyNotFound`
(`ErrKeyNotFound` is declared in a file of the repository not present under
src/; the spec states there is exactly one error kind). -/
inductive TMError where
  | keyNotFound
deriving DecidableEq, Repr

/-- Go `t.m.Load key` on the association-list model: first binding wins
(bindings are unique in every reachable state). -/
def lookupKey : List (Nat × valueWrapper) → Nat → Option valueWrapper
  | [], _ => none
  | (k', w) :: rest, k => if k' = k then some w else lookupKey rest k

/-- Go `t.m.Delete key` on the association-list model. -/
def eraseKey : List (Nat × valueWrapper) → Nat → List (Nat × valueWrapper)
  | [], _ => []
  | (k', w) :: rest, k =>
      if k' = k then eraseKey rest k else (k', w) :: eraseKey rest k

/-- Go `t.m.Store key w` on the association-list model: replace the binding in
place if the key is bound, otherwise append. -/
def storeKey : List (Nat × valueWrapper) → Nat → valueWrapper → List (Nat × valueWrapper)
  | [], k, w => [(k, w)]
  | (k', w') :: rest, k, w =>
      if k' = k then (k, w) :: rest else (k', w') :: storeKey rest k w

/-- Callback invocation performed by `remove`: `if vw.cb != nil { vw.cb(vw.val) }`,
as the list of log events it appends. -/
def cbEvents (vw : valueWrapper) : List (Nat × Option Nat) :=
  match vw.cb with
  | some c => [(c, vw.val)]
  | none => []

/-- Body of Go `remove(key, vw)` for a non-nil `vw` (the path taken by `get`
and `Flush`, and by `Remove` after its own `get`): fire the callback, delete
the key, return the wrapper to the pool unreset, decrement `size`. -/
def removeVW (t : timedMap) (k : Nat) (vw : valueWrapper) : timedMap :=
  { m := eraseKey t.m k
    size := t.size - 1
    pool := t.pool ++ [vw]
    events := t.events ++ cbEvents vw }

/-- Go `get(key)`: load the wrapper; if `time.Now().After(vw.exp)` the entry is
expired, so it is removed (callback fired) and the lookup reports absence. -/
def get (t : timedMap) (now : Int) (k : Nat) : Option valueWrapper × timedMap :=
  match lookupKey t.m k with
  | none => (none, t)
  | some vw => if now > vw.exp then (none, removeVW t k vw) else (some vw, t)

/-- Go `remove(key, vw)` in full: when `vw` is nil it is fetched via `get`
(which itself removes the entry when it turns out expired); an absent key is a
no-op. -/
def remove (t : timedMap) (now : Int) (k : Nat) (vw : Option valueWrapper) : timedMap :=
  match vw with
  | some w => removeVW t k w
  | none =>
    match get t now k with
    | (some w, t') => removeVW t' k w
    | (none, t') => t'

/-- Go `Set(key, value, expiresAfter, cb...)`: look the key up through `get`
(lazily reaping it if expired); if absent, acquire a wrapper from the pool
(or allocate) and increment `size`; then overwrite all three fields — the
callback is cleared when the variadic argument is omitted (`cb = none`) — and
store the wrapper. -/
def Set (t : timedMap) (now : Int) (k : Nat) (value : Option Nat) (expiresAfter : Int)
    (cb : Option Nat) : timedMap :=
  let vw : valueWrapper := { val := value, exp := now + expiresAfter, cb := cb }
  match get t now k with
  | (some _, t1) => { t1 with m := storeKey t1.m k vw }
  | (none, t1) =>
    match t1.pool with
    | [] => { t1 with m := storeKey t1.m k vw, size := t1.size + 1 }
    | _ :: ws => { t1 with m := storeKey t1.m k vw, size := t1.size + 1, pool := ws }

/-- Go `GetValue(key)`: the named result `v` defaults to nil when `get` fails. -/
def GetValue (t : timedMap) (now : Int) (k : Nat) : Option Nat × timedMap :=
  match get t now k with
  | (none, t') => (none, t')
  | (some vw, t') => (vw.val, t')

/-- Go `GetExpires(key)`: the expiry timestamp, or `ErrKeyNotFound`. -/
def GetExpires (t : timedMap) (now : Int) (k : Nat) : Except TMError Int × timedMap :=
  match get t now k with
  | (none, t') => (Except.error TMError.keyNotFound, t')
  | (some vw, t') => (Except.ok vw.exp, t')

/-- Go `SetExpire(key, d)`: reset the expiry to `now + d` in place, or
`ErrKeyNotFound`. -/
def SetExpire (t : timedMap) (now : Int) (k : Nat) (d : Int) : Except TMError Unit × timedMap :=
  match get t now k with
  | (none, t') => (Except.error TMError.keyNotFound, t')
  | (some vw, t') =>
      (Except.ok (), { t' with m := storeKey t'.m k { vw with exp := now + d } })

/-- Go `Refresh(key, d)`: add `d` to the entry's current expiry in place
(`vw.exp = vw.exp.Add(d)`), or `ErrKeyNotFound`. -/
def Refresh (t : timedMap) (now : Int) (k : Nat) (d : Int) : Except TMError Unit × timedMap :=
  match get t now k with
  | (none, t') => (Except.error TMError.keyNotFound, t')
  | (some vw, t') =>
      (Except.ok (), { t' with m := storeKey t'.m k { vw with exp := vw.exp + d } })

/-- Go `Contains(key)`: the boolean result of `get`, with its side effects. -/
def Contains (t : timedMap) (now : Int) (k : Nat) : Bool × timedMap :=
  ((get t now k).1.isSome, (get t now k).2)

/-- Go `Remove(key)`: `remove(key, nil)`. -/
def Remove (t : timedMap) (now : Int) (k : Nat) : timedMap :=
  remove t now k none

/-- Go `Flush()`: `Range` over the entries, calling `remove(key, vw)` with the
non-nil wrapper on each (no expiry check on this path). -/
def Flush (t : timedMap) (now : Int) : timedMap :=
  t.m.foldl (fun st p => remove st now p.1 (some p.2)) t

/-- Go `Size()`: the incrementally maintained counter. -/
def Size (t : timedMap) : Int :=
  t.size

/-- Go `cleanup()`: `Range` over the entries, forcing `get` (and thus lazy
expiry) on each key. -/
def cleanup (t : timedMap) (now : Int) : timedMap :=
  t.m.foldl (fun st p => (get st now p.1).2) t

/-- The store state produced by Go `New` before any operation runs: empty map,
zero size, empty pool, nothing fired. -/
def newTimedMap : timedMap :=
  { m := [], size := 0, pool := [], events := [] }

/-- Well-formedness of a store state: the map has no duplicate keys and the
`size` counter equals the number of entries present. -/
def WF (t : timedMap) : Prop :=
  (t.m.map Prod.fst).Nodup ∧ t.size = (t.m.length : Int)

/-!
Association-list lemmas.
-/

theorem lookupKey_eq_none_iff (es : List (Nat × valueWrapper)) (k : Nat) :
    lookupKey es k = none ↔ k ∉ es.map Prod.fst := by
  induction es with
  | nil => simp [lookupKey]
  | cons p rest ih =>
    obtain ⟨k', w⟩ := p
    by_cases h : k' = k
    · subst h
      simp [lookupKey]
    · simp [lookupKey, h, ih, Ne.symm h]

theorem lookupKey_eraseKey_self (es : List (Nat × valueWrapper)) (k : Nat) :
    lookupKey (eraseKey es k) k = none := by
  induction es with
  | nil => simp [eraseKey, lookupKey]
  | cons p rest ih =>
    obtain ⟨k', w⟩ := p
    by_cases h : k' = k
    · simp [eraseKey, h, ih]
    · simp [eraseKey, h, lookupKey, ih]

theorem lookupKey_eraseKey_ne (es : List (Nat × valueWrapper)) {k k' : Nat}
    (h : k' ≠ k) : lookupKey (eraseKey es k) k' = lookupKey es k' := by
  induction es with
  | nil => simp [eraseKey]
  | cons p rest ih =>
    obtain ⟨k₀, w⟩ := p
    by_cases h0 : k₀ = k
    · subst h0
      simp [eraseKey, lookupKey, Ne.symm h, ih]
    · by_cases h1 : k₀ = k'
      · simp [eraseKey, h0, lookupKey, h1, h]
      · simp [eraseKey, h0, lookupKey, h1, ih]

theorem eraseKey_of_lookupKey_none (es : List (Nat × valueWrapper)) (k : Nat)
    (h : lookupKey es k = none) : eraseKey es k = es := by
  induction es with
  | nil => simp [eraseKey]
  | cons p rest ih =>
    obtain ⟨k', w⟩ := p
    by_cases h0 : k' = k
    · subst h0
      simp [lookupKey] at h
    · simp [lookupKey, h0] at h
      simp [eraseKey, h0, ih h]

theorem eraseKey_sublist (es : List (Nat × valueWrapper)) (k : Nat) :
    (eraseKey es k).Sublist es := by
  induction es with
  | nil => simp [eraseKey]
  | cons p rest ih =>
    obtain ⟨k', w⟩ := p
    by_cases h : k' = k
    · simp only [eraseKey, if_pos h]
      exact ih.cons _
    · simp only [eraseKey, if_neg h]
      exact ih.cons₂ _

theorem keys_nodup_eraseKey (es : List (Nat × valueWrapper)) (k : Nat)
    (h : (es.map Prod.fst).Nodup) : ((eraseKey es k).map Prod.fst).Nodup :=
  List.Nodup.sublist (List.Sublist.map Prod.fst (eraseKey_sublist es k)) h

theorem length_eraseKey_of_lookupKey (es : List (Nat × valueWrapper)) (k : Nat)
    (w : valueWrapper) (hnd : (es.map Prod.fst).Nodup)
    (h : lookupKey es k = some w) :
    (eraseKey es k).length + 1 = es.length := by
  induction es with
  | nil => simp [lookupKey] at h
  | cons p rest ih =>
    obtain ⟨k', w'⟩ := p
    simp only [List.map_cons, List.nodup_cons] at hnd
    by_cases h0 : k' = k
    · subst h0
      have hout : lookupKey rest k' = none :=
        (lookupKey_eq_none_iff rest k').mpr hnd.1
      simp [eraseKey, eraseKey_of_lookupKey_none rest k' hout]
    · simp only [lookupKey, if_neg h0] at h
      simp [eraseKey, h0, ih hnd.2 h]

theorem lookupKey_storeKey_self (es : List (Nat × valueWrapper)) (k : Nat)
    (w : valueWrapper) : lookupKey (storeKey es k w) k = some w := by
  induction es with
  | nil => simp [storeKey, lookupKey]
  | cons p rest ih =>
    obtain ⟨k', w'⟩ := p
    by_cases h : k' = k
    · simp [storeKey, h, lookupKey]
    · simp [storeKey, h, lookupKey, ih]

theorem lookupKey_storeKey_ne (es : List (Nat × valueWrapper)) {k k' : Nat}
    (w : valueWrapper) (h : k' ≠ k) :
    lookupKey (storeKey es k w) k' = lookupKey es k' := by
  induction es with
  | nil => simp [storeKey, lookupKey, Ne.symm h]
  | cons p rest ih =>
    obtain ⟨k₀, w₀⟩ := p
    by_cases h0 : k₀ = k
    · subst h0
      simp [storeKey, lookupKey, Ne.symm h]
    · by_cases h1 : k₀ = k'
      · simp [storeKey, h0, lookupKey, h1, h]
      · simp [storeKey, h0, lookupKey, h1, ih]

theorem length_storeKey_of_lookupKey_some (es : List (Nat × valueWrapper)) (k : Nat)
    (w w' : valueWrapper) (h : lookupKey es k = some w') :
    (storeKey es k w).length = es.length := by
  induction es with
  | nil => simp [lookupKey] at h
  | cons p rest ih =>
    obtain ⟨k₀, w₀⟩ := p
    by_cases h0 : k₀ = k
    · simp [storeKey, h0]
    · simp only [lookupKey, if_neg h0] at h
      simp [storeKey, h0, ih h]

theorem length_storeKey_of_lookupKey_none (es : List (Nat × valueWrapper)) (k : Nat)
    (w : valueWrapper) (h : lookupKey es k = none) :
    (storeKey es k w).length = es.length + 1 := by
  induction es with
  | nil => simp [storeKey]
  | cons p rest ih =>
    obtain ⟨k₀, w₀⟩ := p
    by_cases h0 : k₀ = k
    · subst h0
      simp [lookupKey] at h
    · simp only [lookupKey, if_neg h0] at h
      simp [storeKey, h0, ih h]

theorem keys_storeKey_of_lookupKey_some (es : List (Nat × valueWrapper)) (k : Nat)
    (w w' : valueWrapper) (h : lookupKey es k = some w') :
    (storeKey es k w).map Prod.fst = es.map Prod.fst := by
  induction es with
  | nil => simp [lookupKey] at h
  | cons p rest ih =>
    obtain ⟨k₀, w₀⟩ := p
    by_cases h0 : k₀ = k
    · subst h0
      simp [storeKey]
    · simp only [lookupKey, if_neg h0] at h
      simp [storeKey, h0, ih h]

theorem keys_storeKey_of_lookupKey_none (es : List (Nat × valueWrapper)) (k : Nat)
    (w : valueWrapper) (h : lookupKey es k = none) :
    (storeKey es k w).map Prod.fst = es.map Prod.fst ++ [k] := by
  induction es with
  | nil => simp [storeKey]
  | cons p rest ih =>
    obtain ⟨k₀, w₀⟩ := p
    by_cases h0 : k₀ = k
    · subst h0
      simp [lookupKey] at h
    · simp only [lookupKey, if_neg h0] at h
      simp [storeKey, h0, ih h]

theorem keys_nodup_storeKey (es : List (Nat × valueWrapper)) (k : Nat)
    (w : valueWrapper) (h : (es.map Prod.fst).Nodup) :
    ((storeKey es k w).map Prod.fst).Nodup := by
  cases hl : lookupKey es k with
  | none =>
    rw [keys_storeKey_of_lookupKey_none es k w hl]
    have hk : k ∉ es.map Prod.fst := (lookupKey_eq_none_iff es k).mp hl
    simp [List.nodup_append, h, hk]
  | some w' =>
    rw [keys_storeKey_of_lookupKey_some es k w w' hl]
    exact h

/-!
Characterization of `get` and preservation of well-formedness.
-/

theorem get_of_absent (t : timedMap) (now : Int) (k : Nat)
    (h : lookupKey t.m k = none) : get t now k = (none, t) := by
  simp [get, h]

theorem get_of_live (t : timedMap) (now : Int) (k : Nat) (vw : valueWrapper)
    (h : lookupKey t.m k = some vw) (hl : ¬ now > vw.exp) :
    get t now k = (some vw, t) := by
  simp [get, h, hl]

theorem get_of_expired (t : timedMap) (now : Int) (k : Nat) (vw : valueWrapper)
    (h : lookupKey t.m k = some vw) (he : now > vw.exp) :
    get t now k = (none, removeVW t k vw) := by
  simp [get, h, he]

theorem get_fst_some (t : timedMap) (now : Int) (k : Nat) (vw : valueWrapper)
    (h : (get t now k).1 = some vw) :
    lookupKey t.m k = some vw ∧ ¬ now > vw.exp ∧ (get t now k).2 = t := by
  cases hl : lookupKey t.m k with
  | none =>
    rw [get_of_absent t now k hl] at h
    simp at h
  | some w =>
    by_cases he : now > w.exp
    · rw [get_of_expired t now k w hl he] at h
      simp at h
    · rw [get_of_live t now k w hl he] at h
      simp at h
      subst h
      exact ⟨rfl, he, by rw [get_of_live t now k w hl he]⟩

theorem get_fst_none_lookup (t : timedMap) (now : Int) (k : Nat)
    (h : (get t now k).1 = none) : lookupKey (get t now k).2.m k = none := by
  cases hl : lookupKey t.m k with
  | none =>
    rw [get_of_absent t now k hl]
    exact hl
  | some w =>
    by_cases he : now > w.exp
    · rw [get_of_expired t now k w hl he]
      simp [removeVW, lookupKey_eraseKey_self]
    · rw [get_of_live t now k w hl he] at h
      simp at h

/-!
Per-case equations for each operation, in terms of the shape of the raw
lookup at the queried key.
-/

theorem Set_of_live (t : timedMap) (now : Int) (k : Nat) (v : Option Nat) (d : Int)
    (cb : Option Nat) (vw : valueWrapper)
    (h : lookupKey t.m k = some vw) (hl : ¬ now > vw.exp) :
    Set t now k v d cb =
      { t with m := storeKey t.m k { val := v, exp := now + d, cb := cb } } := by
  unfold Set
  rw [get_of_live t now k vw h hl]

theorem Set_of_absent (t : timedMap) (now : Int) (k : Nat) (v : Option Nat) (d : Int)
    (cb : Option Nat) (h : lookupKey t.m k = none) :
    Set t now k v d cb =
      { m := storeKey t.m k { val := v, exp := now + d, cb := cb },
        size := t.size + 1, pool := t.pool.tail, events := t.events } := by
  unfold Set
  rw [get_of_absent t now k h]
  cases hp : t.pool <;> simp [hp]

theorem Set_of_expired (t : timedMap) (now : Int) (k : Nat) (v : Option Nat) (d : Int)
    (cb : Option Nat) (vw : valueWrapper)
    (h : lookupKey t.m k = some vw) (he : now > vw.exp) :
    Set t now k v d cb =
      { m := storeKey (eraseKey t.m k) k { val := v, exp := now + d, cb := cb },
        size := t.size - 1 + 1, pool := (t.pool ++ [vw]).tail,
        events := t.events ++ cbEvents vw } := by
  unfold Set
  rw [get_of_expired t now k vw h he]
  cases hp : t.pool <;> simp [hp, removeVW]

theorem Remove_of_absent (t : timedMap) (now : Int) (k : Nat)
    (h : lookupKey t.m k = none) : Remove t now k = t := by
  unfold Remove remove
  rw [get_of_absent t now k h]

theorem Remove_of_present (t : timedMap) (now : Int) (k : Nat) (vw : valueWrapper)
    (h : lookupKey t.m k = some vw) : Remove t now k = removeVW t k vw := by
  unfold Remove remove
  by_cases he : now > vw.exp
  · rw [get_of_expired t now k vw h he]
  · rw [get_of_live t now k vw h he]

theorem GetValue_of_absent (t : timedMap) (now : Int) (k : Nat)
    (h : lookupKey t.m k = none) : GetValue t now k = (none, t) := by
  unfold GetValue
  rw [get_of_absent t now k h]

theorem GetValue_of_live (t : timedMap) (now : Int) (k : Nat) (vw : valueWrapper)
    (h : lookupKey t.m k = some vw) (hl : ¬ now > vw.exp) :
    GetValue t now k = (vw.val, t) := by
  unfold GetValue
  rw [get_of_live t now k vw h hl]

theorem GetValue_of_expired (t : timedMap) (now : Int) (k : Nat) (vw : valueWrapper)
    (h : lookupKey t.m k = some vw) (he : now > vw.exp) :
    GetValue t now k = (none, removeVW t k vw) := by
  unfold GetValue
  rw [get_of_expired t now k vw h he]

theorem GetExpires_eq (t : timedMap) (now : Int) (k : Nat) :
    GetExpires t now k =
      match (get t now k).1 with
      | none => (Except.error TMError.keyNotFound, (get t now k).2)
      | some vw => (Except.ok vw.exp, (get t now k).2) := by
  unfold GetExpires
  cases hg : get t now k with
  | mk r t' => cases r <;> rfl

theorem GetExpires_of_absent (t : timedMap) (now : Int) (k : Nat)
    (h : (get t now k).1 = none) :
    GetExpires t now k = (Except.error TMError.keyNotFound, (get t now k).2) := by
  unfold GetExpires
  cases hg : get t now k with
  | mk r t' =>
    rw [hg] at h
    simp only at h
    subst h
    rfl

theorem GetExpires_of_found (t : timedMap) (now : Int) (k : Nat)
    (vw : valueWrapper) (h : (get t now k).1 = some vw) :
    GetExpires t now k = (Except.ok vw.exp, (get t now k).2) := by
  obtain ⟨hl, hlive, hsnd⟩ := get_fst_some t now k vw h
  unfold GetExpires
  rw [get_of_live t now k vw hl hlive]

theorem SetExpire_of_absent (t : timedMap) (now : Int) (k : Nat) (d : Int)
    (h : (get t now k).1 = none) :
    SetExpire t now k d = (Except.error TMError.keyNotFound, (get t now k).2) := by
  unfold SetExpire
  cases hg : get t now k with
  | mk r t' =>
    rw [hg] at h
    simp only at h
    subst h
    rfl

theorem SetExpire_of_found (t : timedMap) (now : Int) (k : Nat) (d : Int)
    (vw : valueWrapper) (h : (get t now k).1 = some vw) :
    SetExpire t now k d =
      (Except.ok (),
        { t with m := storeKey t.m k { vw with exp := now + d } }) := by
  obtain ⟨hl, hlive, hsnd⟩ := get_fst_some t now k vw h
  unfold SetExpire
  rw [get_of_live t now k vw hl hlive]

theorem Refresh_of_absent (t : timedMap) (now : Int) (k : Nat) (d : Int)
    (h : (get t now k).1 = none) :
    Refresh t now k d = (Except.error TMError.keyNotFound, (get t now k).2) := by
  unfold Refresh
  cases hg : get t now k with
  | mk r t' =>
    rw [hg] at h
    simp only at h
    subst h
    rfl

theorem Refresh_of_found (t : timedMap) (now : Int) (k : Nat) (d : Int)
    (vw : valueWrapper) (h : (get t now k).1 = some vw) :
    Refresh t now k d =
      (Except.ok (),
        { t with m := storeKey t.m k { vw with exp := vw.exp + d } }) := by
  obtain ⟨hl, hlive, hsnd⟩ := get_fst_some t now k vw h
  unfold Refresh
  rw [get_of_live t now k vw hl hlive]

/-!
Preservation of well-formedness.
-/

theorem WF_removeVW (t : timedMap) (k : Nat) (vw vw' : valueWrapper)
    (hw : WF t) (h : lookupKey t.m k = some vw') : WF (removeVW t k vw) := by
  obtain ⟨hnd, hsz⟩ := hw
  refine ⟨keys_nodup_eraseKey t.m k hnd, ?_⟩
  have := length_eraseKey_of_lookupKey t.m k vw' hnd h
  simp only [removeVW]
  omega

theorem WF_get (t : timedMap) (now : Int) (k : Nat) (hw : WF t) :
    WF (get t now k).2 := by
  cases hl : lookupKey t.m k with
  | none => rw [get_of_absent t now k hl]; exact hw
  | some w =>
    by_cases he : now > w.exp
    · rw [get_of_expired t now k w hl he]
      exact WF_removeVW t k w w hw hl
    · rw [get_of_live t now k w hl he]
      exact hw

theorem WF_Set (t : timedMap) (now : Int) (k : Nat) (v : Option Nat) (d : Int)
    (cb : Option Nat) (hw : WF t) : WF (Set t now k v d cb) := by
  obtain ⟨hnd, hsz⟩ := hw
  cases hl : lookupKey t.m k with
  | none =>
    rw [Set_of_absent t now k v d cb hl]
    refine ⟨keys_nodup_storeKey t.m k _ hnd, ?_⟩
    have := length_storeKey_of_lookupKey_none t.m k
      { val := v, exp := now + d, cb := cb } hl
    simp only []
    omega
  | some vw =>
    by_cases he : now > vw.exp
    · rw [Set_of_expired t now k v d cb vw hl he]
      have hnd' := keys_nodup_eraseKey t.m k hnd
      refine ⟨keys_nodup_storeKey (eraseKey t.m k) k _ hnd', ?_⟩
      have h1 := length_storeKey_of_lookupKey_none (eraseKey t.m k) k
        { val := v, exp := now + d, cb := cb } (lookupKey_eraseKey_self t.m k)
      have h2 := length_eraseKey_of_lookupKey t.m k vw hnd hl
      simp only []
      omega
    · rw [Set_of_live t now k v d cb vw hl he]
      refine ⟨keys_nodup_storeKey t.m k _ hnd, ?_⟩
      have := length_storeKey_of_lookupKey_some t.m k
        { val := v, exp := now + d, cb := cb } vw hl
      simp only []
      omega

theorem WF_GetValue (t : timedMap) (now : Int) (k : Nat) (hw : WF t) :
    WF (GetValue t now k).2 := by
  cases hl : lookupKey t.m k with
  | none => rw [GetValue_of_absent t now k hl]; exact hw
  | some vw =>
    by_cases he : now > vw.exp
    · rw [GetValue_of_expired t now k vw hl he]
      exact WF_removeVW t k vw vw hw hl
    · rw [GetValue_of_live t now k vw hl he]
      exact hw

theorem WF_GetExpires (t : timedMap) (now : Int) (k : Nat) (hw : WF t) :
    WF (GetExpires t now k).2 := by
  rw [GetExpires_eq]
  have := WF_get t now k hw
  cases (get t now k).1 <;> exact this

theorem WF_setField (t : timedMap) (k : Nat) (vw vw' : valueWrapper) (hw : WF t)
    (h : lookupKey t.m k = some vw') :
    WF { t with m := storeKey t.m k vw } := by
  obtain ⟨hnd, hsz⟩ := hw
  refine ⟨keys_nodup_storeKey t.m k vw hnd, ?_⟩
  have := length_storeKey_of_lookupKey_some t.m k vw vw' h
  simp only []
  omega

theorem WF_SetExpire (t : timedMap) (now : Int) (k : Nat) (d : Int) (hw : WF t) :
    WF (SetExpire t now k d).2 := by
  cases hg : (get t now k).1 with
  | none =>
    rw [SetExpire_of_absent t now k d hg]
    exact WF_get t now k hw
  | some vw =>
    obtain ⟨hl, hlive, hsnd⟩ := get_fst_some t now k vw hg
    rw [SetExpire_of_found t now k d vw hg]
    exact WF_setField t k { vw with exp := now + d } vw hw hl

theorem WF_Refresh (t : timedMap) (now : Int) (k : Nat) (d : Int) (hw : WF t) :
    WF (Refresh t now k d).2 := by
  cases hg : (get t now k).1 with
  | none =>
    rw [Refresh_of_absent t now k d hg]
    exact WF_get t now k hw
  | some vw =>
    obtain ⟨hl, hlive, hsnd⟩ := get_fst_some t now k vw hg
    rw [Refresh_of_found t now k d vw hg]
    exact WF_setField t k { vw with exp := vw.exp + d } vw hw hl

theorem WF_Contains (t : timedMap) (now : Int) (k : Nat) (hw : WF t) :
    WF (Contains t now k).2 :=
  WF_get t now k hw

theorem WF_Remove (t : timedMap) (now : Int) (k : Nat) (hw : WF t) :
    WF (Remove t now k) := by
  cases hl : lookupKey t.m k with
  | none => rw [Remove_of_absent t now k hl]; exact hw
  | some vw =>
    rw [Remove_of_present t now k vw hl]
    exact WF_removeVW t k vw vw hw hl

/-!
Flush and cleanup.
-/

/-- Concatenation of the callback events of a list of entries, in order. -/
def cbEventsOf : List (Nat × valueWrapper) → List (Nat × Option Nat)
  | [] => []
  | p :: rest => cbEvents p.2 ++ cbEventsOf rest

theorem flush_aux (now : Int) :
    ∀ (l : List (Nat × valueWrapper)) (t : timedMap), t.m = l →
      (l.map Prod.fst).Nodup →
      List.foldl (fun st p => remove st now p.1 (some p.2)) t l =
        { m := [], size := t.size - (l.length : Int),
          pool := t.pool ++ l.map Prod.snd, events := t.events ++ cbEventsOf l }
  | [], t, hm, _ => by
      cases t with
      | mk m sz pool ev =>
        simp only at hm
        subst hm
        simp [cbEventsOf]
  | (k, w) :: rest, t, hm, hnd => by
      simp only [List.map_cons, List.nodup_cons] at hnd
      have hrest : eraseKey t.m k = rest := by
        rw [hm]
        simp only [eraseKey, if_pos rfl]
        exact eraseKey_of_lookupKey_none rest k
          ((lookupKey_eq_none_iff rest k).mpr hnd.1)
      have hstep : remove t now k (some w) = removeVW t k w := rfl
      rw [List.foldl_cons, hstep,
        flush_aux now rest (removeVW t k w) (by simp [removeVW, hrest]) hnd.2]
      simp [removeVW, cbEventsOf, List.append_assoc, timedMap.mk.injEq]
      omega

theorem Flush_eq (t : timedMap) (now : Int)
    (hnd : (t.m.map Prod.fst).Nodup) :
    Flush t now =
      { m := [], size := t.size - (t.m.length : Int),
        pool := t.pool ++ t.m.map Prod.snd,
        events := t.events ++ cbEventsOf t.m } :=
  flush_aux now t.m t rfl hnd

theorem WF_Flush (t : timedMap) (now : Int) (hw : WF t) : WF (Flush t now) := by
  obtain ⟨hnd, hsz⟩ := hw
  rw [Flush_eq t now hnd]
  refine ⟨by simp, ?_⟩
  simp only [List.length_nil, Nat.cast_zero]
  omega

theorem WF_cleanup_aux (now : Int) (l : List (Nat × valueWrapper)) :
    ∀ t : timedMap, WF t →
      WF (List.foldl (fun st p => (get st now p.1).2) t l) := by
  induction l with
  | nil => intro t hw; exact hw
  | cons p rest ih =>
    intro t hw
    rw [List.foldl_cons]
    exact ih _ (WF_get t now p.1 hw)

theorem WF_cleanup (t : timedMap) (now : Int) (hw : WF t) :
    WF (cleanup t now) :=
  WF_cleanup_aux now t.m t hw

/-!
Sweeper model.  `cleanupCycle` runs `for { select { case <-ticker.C: go
t.cleanup() ; case <-t.cStopCleanup: ticker.Stop(); break } }` with `defer
func() { t.cleanupRunning = false }()`.  In Go, `break` inside a `select`
terminates only the `select` statement, after which the enclosing `for`
continues; the deferred reset of `cleanupRunning` runs only when the
goroutine's function returns.
-/

/-- Observable state of the sweeper: the `cleanupRunning` flag of the
`timedMap` struct, whether the ticker is still active, and whether the
`cleanupCycle` goroutine is still inside its `for` loop (`loopAlive = false`
would mean the function returned and its deferred reset ran). -/
structure sweeper where
  cleanupRunning : Bool
  tickerActive : Bool
  loopAlive : Bool
deriving DecidableEq, Repr

/-- Events the `select` in `cleanupCycle` can wake up on: a ticker tick or the
stop signal sent by `StopCleaner`. -/
inductive loopEvent where
  | tick
  | stop
deriving DecidableEq, Repr

/-- Sweeper state after `StartCleaner`: flag set, ticker running, loop
entered. -/
def startCleanerState : sweeper :=
  { cleanupRunning := true, tickerActive := true, loopAlive := true }

/-- One iteration of the `for`/`select` of `cleanupCycle`.  On a tick the loop
dispatches `go t.cleanup()` and iterates.  On the stop signal it runs
`ticker.Stop()` and then `break`, which in Go exits only the `select`: the
`for` loop keeps iterating, so `loopAlive` stays `true` and the deferred
`t.cleanupRunning = false` does not execute. -/
def cleanupCycleStep (s : sweeper) (e : loopEvent) : sweeper :=
  match e with
  | .tick => s
  | .stop => { s with tickerActive := false }

/-!
Claim theorems.
-/

/-- C1: `GetValue(key)` returns the stored value if an entry for the key
exists and is unexpired and the absent sentinel (`none`, not an error)
otherwise; a lookup never returns an entry whose `exp` is in the past; when a
lookup finds an expired entry, that entry is removed from the map and its
callback (if set) fires; `Contains(key)` has the same lazy-expiry side effect
and is `true` exactly when the lookup finds an existing, unexpired entry
(whose stored value `GetValue` then returns). -/
theorem getValue_contains_lazy_expiry (t : timedMap) (now : Int) (k : Nat) :
    (∀ vw, lookupKey t.m k = some vw → ¬ now > vw.exp →
      GetValue t now k = (vw.val, t) ∧ Contains t now k = (true, t)) ∧
    (lookupKey t.m k = none →
      GetValue t now k = (none, t) ∧ Contains t now k = (false, t)) ∧
    (∀ vw, lookupKey t.m k = some vw → now > vw.exp →
      GetValue t now k = (none, removeVW t k vw) ∧
      lookupKey (GetValue t now k).2.m k = none ∧
      (GetValue t now k).2.events = t.events ++ cbEvents vw ∧
      Contains t now k = (false, removeVW t k vw)) ∧
    (∀ vw, (get t now k).1 = some vw → ¬ now > vw.exp) ∧
    ((Contains t now k).1 = true ↔
      ∃ vw, lookupKey t.m k = some vw ∧ ¬ now > vw.exp) ∧
    (Contains t now k).2 = (GetValue t now k).2 := by
  refine ⟨?_, ?_, ?_, ?_, ?_, ?_⟩
  · intro vw h hl
    unfold Contains
    rw [GetValue_of_live t now k vw h hl, get_of_live t now k vw h hl]
    exact ⟨rfl, rfl⟩
  · intro h
    unfold Contains
    rw [GetValue_of_absent t now k h, get_of_absent t now k h]
    exact ⟨rfl, rfl⟩
  · intro vw h he
    unfold Contains
    rw [GetValue_of_expired t now k vw h he, get_of_expired t now k vw h he]
    exact ⟨rfl, by simp [removeVW, lookupKey_eraseKey_self], rfl, rfl⟩
  · intro vw h
    exact (get_fst_some t now k vw h).2.1
  · constructor
    · intro h
      cases hl : lookupKey t.m k with
      | none =>
        unfold Contains at h
        rw [get_of_absent t now k hl] at h
        simp at h
      | some vw =>
        by_cases he : now > vw.exp
        · unfold Contains at h
          rw [get_of_expired t now k vw hl he] at h
          simp at h
        · exact ⟨vw, rfl, he⟩
    · rintro ⟨vw, hl, he⟩
      unfold Contains
      rw [get_of_live t now k vw hl he]
      rfl
  · cases hl : lookupKey t.m k with
    | none =>
      unfold Contains
      rw [GetValue_of_absent t now k hl, get_of_absent t now k hl]
    | some vw =>
      by_cases he : now > vw.exp
      · unfold Contains
        rw [GetValue_of_expired t now k vw hl he, get_of_expired t now k vw hl he]
      · unfold Contains
        rw [GetValue_of_live t now k vw hl he, get_of_live t now k vw hl he]

/-- Witness for C1 at a concrete expired entry: the lookup removes it, fires
its callback, and reports absence. -/
theorem getValue_contains_lazy_expiry_witness :
    GetValue ⟨[(1, ⟨some 4, 0, some 9⟩)], 1, [], []⟩ 5 1 =
      (none, ⟨[], 0, [⟨some 4, 0, some 9⟩], [(9, some 4)]⟩) ∧
    Contains ⟨[(1, ⟨some 4, 0, some 9⟩)], 1, [], []⟩ 5 1 =
      (false, ⟨[], 0, [⟨some 4, 0, some 9⟩], [(9, some 4)]⟩) := by
  have h := (getValue_contains_lazy_expiry ⟨[(1, ⟨some 4, 0, some 9⟩)], 1, [], []⟩ 5 1).2.2.1
    ⟨some 4, 0, some 9⟩ (by decide) (by decide)
  exact ⟨by rw [h.1]; decide, by rw [h.2.2.2]; decide⟩

/-- C10: a live entry whose stored value is the nil interface value makes
`GetValue` return `none` — the same sentinel as an absent or expired key —
while `Contains` returns `true`; an absent key gives `none` and `false`. -/
theorem nil_value_indistinguishable (t : timedMap) (now : Int) (k : Nat) :
    (∀ vw, lookupKey t.m k = some vw → ¬ now > vw.exp → vw.val = none →
      (GetValue t now k).1 = none ∧ (Contains t now k).1 = true) ∧
    (lookupKey t.m k = none →
      (GetValue t now k).1 = none ∧ (Contains t now k).1 = false) := by
  refine ⟨?_, ?_⟩
  · intro vw h hl hv
    unfold Contains
    rw [GetValue_of_live t now k vw h hl, get_of_live t now k vw h hl]
    exact ⟨hv, rfl⟩
  · intro h
    unfold Contains
    rw [GetValue_of_absent t now k h, get_of_absent t now k h]
    exact ⟨rfl, rfl⟩

/-- Witness for C10: a live entry storing nil at time 3 (expiry 10). -/
theorem nil_value_indistinguishable_witness :
    (GetValue ⟨[(2, ⟨none, 10, none⟩)], 1, [], []⟩ 3 2).1 = none ∧
    (Contains ⟨[(2, ⟨none, 10, none⟩)], 1, [], []⟩ 3 2).1 = true := by
  exact (nil_value_indistinguishable ⟨[(2, ⟨none, 10, none⟩)], 1, [], []⟩ 3 2).1
    ⟨none, 10, none⟩ (by decide) (by decide) (by decide)

/-- C2: the size counter always equals the number of entries currently
present in the map (the well-formedness invariant `WF`), it holds for the
fresh map and is preserved by every operation, and it changes by exactly +1
on a `Set` of an absent key, is net unchanged on a `Set` of a present key
(live or expired-but-not-yet-reaped), and by exactly −1 on any removal (lazy
expiry discovered by a read, explicit `Remove`), with `Flush` driving it to
zero. -/
theorem size_invariant (t : timedMap) (now : Int) (k : Nat) (v : Option Nat)
    (d : Int) (cb : Option Nat) (hw : WF t) :
    WF newTimedMap ∧
    WF (Set t now k v d cb) ∧ WF (GetValue t now k).2 ∧
    WF (GetExpires t now k).2 ∧ WF (SetExpire t now k d).2 ∧
    WF (Refresh t now k d).2 ∧ WF (Contains t now k).2 ∧
    WF (Remove t now k) ∧ WF (Flush t now) ∧ WF (cleanup t now) ∧
    (lookupKey t.m k = none → (Set t now k v d cb).size = t.size + 1) ∧
    (∀ vw, lookupKey t.m k = some vw → (Set t now k v d cb).size = t.size) ∧
    (∀ vw, lookupKey t.m k = some vw → (Remove t now k).size = t.size - 1) ∧
    (∀ vw, lookupKey t.m k = some vw → now > vw.exp →
      (GetValue t now k).2.size = t.size - 1) ∧
    (Flush t now).size = 0 := by
  refine ⟨⟨by simp [newTimedMap], by simp [newTimedMap]⟩,
    WF_Set t now k v d cb hw, WF_GetValue t now k hw, WF_GetExpires t now k hw,
    WF_SetExpire t now k d hw, WF_Refresh t now k d hw, WF_Contains t now k hw,
    WF_Remove t now k hw, WF_Flush t now hw, WF_cleanup t now hw,
    ?_, ?_, ?_, ?_, ?_⟩
  · intro h
    rw [Set_of_absent t now k v d cb h]
  · intro vw h
    by_cases he : now > vw.exp
    · rw [Set_of_expired t now k v d cb vw h he]
      simp only []
      omega
    · rw [Set_of_live t now k v d cb vw h he]
  · intro vw h
    rw [Remove_of_present t now k vw h]
    rfl
  · intro vw h he
    rw [GetValue_of_expired t now k vw h he]
    rfl
  · rw [Flush_eq t now hw.1]
    have := hw.2
    simp only []
    omega

/-- Witness for C2 at a one-entry map: `Set` of an absent key increments
size by one and `Flush` zeroes it. -/
theorem size_invariant_witness :
    WF (⟨[(1, ⟨some 4, 20, none⟩)], 1, [], []⟩ : timedMap) ∧
    (Set ⟨[(1, ⟨some 4, 20, none⟩)], 1, [], []⟩ 3 2 (some 1) 5 none).size =
      (⟨[(1, ⟨some 4, 20, none⟩)], 1, [], []⟩ : timedMap).size + 1 ∧
    (Flush ⟨[(1, ⟨some 4, 20, none⟩)], 1, [], []⟩ 3).size = 0 := by
  have h := size_invariant ⟨[(1, ⟨some 4, 20, none⟩)], 1, [], []⟩ 3 2 (some 1) 5 none
    ⟨by decide, by decide⟩
  refine ⟨⟨by decide, by decide⟩, ?_, ?_⟩
  · exact h.2.2.2.2.2.2.2.2.2.2.1 (by decide)
  · exact h.2.2.2.2.2.2.2.2.2.2.2.2.2.2

/-- C3 counterexample: on a key whose entry is present but expired
(expired-but-not-yet-reaped), `Set` does fire a callback — the lazy-expiry
lookup inside `Set` removes the old entry and invokes its callback — whereas
the claim says `Set` fires no callback for any present entry. -/
theorem set_fires_old_callback_counterexample :
    lookupKey (⟨[(1, ⟨some 5, 0, some 7⟩)], 1, [], []⟩ : timedMap).m 1 =
      some ⟨some 5, 0, some 7⟩ ∧
    (Set ⟨[(1, ⟨some 5, 0, some 7⟩)], 1, [], []⟩ 3 1 (some 9) 10 none).events =
      [(7, some 5)] := by
  decide

/-- C3 amended: `Set` fires no callback when the key is absent or its entry
is live (unexpired); when the existing entry is expired-but-not-yet-reaped,
the lazy-expiry check inside `Set` removes it and fires its callback once; in
every case the write installs exactly the new value, expiry `now + d`, and
callback (cleared when the variadic argument is omitted, `cb = none`). -/
theorem set_callback_behavior (t : timedMap) (now : Int) (k : Nat)
    (v : Option Nat) (d : Int) (cb : Option Nat) :
    (lookupKey t.m k = none → (Set t now k v d cb).events = t.events) ∧
    (∀ vw, lookupKey t.m k = some vw → ¬ now > vw.exp →
      (Set t now k v d cb).events = t.events) ∧
    (∀ vw, lookupKey t.m k = some vw → now > vw.exp →
      (Set t now k v d cb).events = t.events ++ cbEvents vw) ∧
    lookupKey (Set t now k v d cb).m k = some ⟨v, now + d, cb⟩ := by
  refine ⟨?_, ?_, ?_, ?_⟩
  · intro h
    rw [Set_of_absent t now k v d cb h]
  · intro vw h hl
    rw [Set_of_live t now k v d cb vw h hl]
  · intro vw h he
    rw [Set_of_expired t now k v d cb vw h he]
  · cases hl : lookupKey t.m k with
    | none =>
      rw [Set_of_absent t now k v d cb hl]
      exact lookupKey_storeKey_self t.m k _
    | some vw =>
      by_cases he : now > vw.exp
      · rw [Set_of_expired t now k v d cb vw hl he]
        exact lookupKey_storeKey_self (eraseKey t.m k) k _
      · rw [Set_of_live t now k v d cb vw hl he]
        exact lookupKey_storeKey_self t.m k _

/-- Witness for C3 amended: overwriting a live entry fires nothing and
installs the new wrapper with the callback cleared. -/
theorem set_callback_behavior_witness :
    (Set ⟨[(1, ⟨some 5, 100, some 7⟩)], 1, [], []⟩ 3 1 (some 9) 10 none).events =
      (⟨[(1, ⟨some 5, 100, some 7⟩)], 1, [], []⟩ : timedMap).events ∧
    lookupKey (Set ⟨[(1, ⟨some 5, 100, some 7⟩)], 1, [], []⟩ 3 1 (some 9) 10 none).m 1 =
      some ⟨some 9, 3 + 10, none⟩ := by
  have h := set_callback_behavior ⟨[(1, ⟨some 5, 100, some 7⟩)], 1, [], []⟩ 3 1
    (some 9) 10 none
  exact ⟨h.2.1 ⟨some 5, 100, some 7⟩ (by decide) (by decide), h.2.2.2⟩

/-- C5: `Remove(key)` on an absent key is a no-op that changes nothing; on a
present key (live or expired) it removes the entry, decrements the size by
exactly one, and fires that entry's callback (if set) exactly once. -/
theorem remove_spec (t : timedMap) (now : Int) (k : Nat) :
    (lookupKey t.m k = none → Remove t now k = t) ∧
    (∀ vw, lookupKey t.m k = some vw →
      Remove t now k = removeVW t k vw ∧
      (Remove t now k).size = t.size - 1 ∧
      lookupKey (Remove t now k).m k = none ∧
      (Remove t now k).events = t.events ++ cbEvents vw) := by
  refine ⟨Remove_of_absent t now k, ?_⟩
  intro vw h
  rw [Remove_of_present t now k vw h]
  exact ⟨rfl, rfl, by simp [removeVW, lookupKey_eraseKey_self], rfl⟩

/-- Witness for C5: removing a present key fires its callback once and drops
the size to zero; removing an absent key changes nothing. -/
theorem remove_spec_witness :
    Remove ⟨[(1, ⟨some 2, 10, some 3⟩)], 1, [], []⟩ 0 2 =
      ⟨[(1, ⟨some 2, 10, some 3⟩)], 1, [], []⟩ ∧
    (Remove ⟨[(1, ⟨some 2, 10, some 3⟩)], 1, [], []⟩ 0 1).size = 0 ∧
    (Remove ⟨[(1, ⟨some 2, 10, some 3⟩)], 1, [], []⟩ 0 1).events = [(3, some 2)] := by
  have hab := (remove_spec ⟨[(1, ⟨some 2, 10, some 3⟩)], 1, [], []⟩ 0 2).1 (by decide)
  have hpr := (remove_spec ⟨[(1, ⟨some 2, 10, some 3⟩)], 1, [], []⟩ 0 1).2
    ⟨some 2, 10, some 3⟩ (by decide)
  refine ⟨hab, ?_, ?_⟩
  · rw [hpr.2.1]; decide
  · rw [hpr.2.2.2]; decide

/-- C6: for an existing, unexpired entry, `Refresh(key, d)` (the spec's
`ExtendExpiry`) sets the entry's new expiry to exactly its prior expiry plus
`d` — relative to the prior value, not to `now` — negative deltas are
accepted and shorten the lifetime, the entry's value and callback are
unchanged, and nothing else in the state changes. -/
theorem refresh_extends_prior_expiry (t : timedMap) (now : Int) (k : Nat)
    (d : Int) (vw : valueWrapper) (h : lookupKey t.m k = some vw)
    (hl : ¬ now > vw.exp) :
    (Refresh t now k d).1 = Except.ok () ∧
    lookupKey (Refresh t now k d).2.m k = some ⟨vw.val, vw.exp + d, vw.cb⟩ ∧
    (∀ k', k' ≠ k → lookupKey (Refresh t now k d).2.m k' = lookupKey t.m k') ∧
    (Refresh t now k d).2.size = t.size ∧
    (Refresh t now k d).2.events = t.events ∧
    (Refresh t now k d).2.pool = t.pool ∧
    (d < 0 → vw.exp + d < vw.exp) := by
  have hg : (get t now k).1 = some vw := by rw [get_of_live t now k vw h hl]
  rw [Refresh_of_found t now k d vw hg]
  refine ⟨rfl, ?_, ?_, rfl, rfl, rfl, fun hd => by omega⟩
  · exact lookupKey_storeKey_self t.m k _
  · intro k' hk
    exact lookupKey_storeKey_ne t.m _ hk

/-- Witness for C6: a negative delta of −5 moves expiry 10 to 5, keeping the
value and callback. -/
theorem refresh_extends_prior_expiry_witness :
    (Refresh ⟨[(1, ⟨some 2, 10, some 3⟩)], 1, [], []⟩ 4 1 (-5)).1 = Except.ok () ∧
    lookupKey (Refresh ⟨[(1, ⟨some 2, 10, some 3⟩)], 1, [], []⟩ 4 1 (-5)).2.m 1 =
      some ⟨some 2, 5, some 3⟩ := by
  have h := refresh_extends_prior_expiry ⟨[(1, ⟨some 2, 10, some 3⟩)], 1, [], []⟩ 4 1 (-5)
    ⟨some 2, 10, some 3⟩ (by decide) (by decide)
  exact ⟨h.1, by rw [h.2.1]; decide⟩

/-- C7: `Flush()` removes every entry — afterwards `Size()` is 0 and no key
has a present entry — and it extends the event log by exactly the
concatenation of the present entries' callback events, so each present
entry's callback fires exactly once and none twice. -/
theorem flush_empties_firing_once (t : timedMap) (now : Int) (hw : WF t) :
    (Flush t now).m = [] ∧ (Flush t now).size = 0 ∧ Size (Flush t now) = 0 ∧
    (∀ k, lookupKey (Flush t now).m k = none) ∧
    (Flush t now).events = t.events ++ cbEventsOf t.m := by
  rw [Flush_eq t now hw.1]
  have := hw.2
  refine ⟨rfl, ?_, ?_, fun k => rfl, rfl⟩
  · simp only []
    omega
  · simp only [Size]
    omega

/-- Witness for C7: flushing a two-entry map (one live, one expired) fires
both callbacks once each and empties the store. -/
theorem flush_empties_firing_once_witness :
    WF (⟨[(1, ⟨some 2, 10, some 3⟩), (2, ⟨some 4, 0, some 5⟩)], 2, [], []⟩ : timedMap) ∧
    (Flush ⟨[(1, ⟨some 2, 10, some 3⟩), (2, ⟨some 4, 0, some 5⟩)], 2, [], []⟩ 7).m = [] ∧
    Size (Flush ⟨[(1, ⟨some 2, 10, some 3⟩), (2, ⟨some 4, 0, some 5⟩)], 2, [], []⟩ 7) = 0 ∧
    (Flush ⟨[(1, ⟨some 2, 10, some 3⟩), (2, ⟨some 4, 0, some 5⟩)], 2, [], []⟩ 7).events =
      [(3, some 2), (5, some 4)] := by
  have h := flush_empties_firing_once
    ⟨[(1, ⟨some 2, 10, some 3⟩), (2, ⟨some 4, 0, some 5⟩)], 2, [], []⟩ 7
    ⟨by decide, by decide⟩
  refine ⟨⟨by decide, by decide⟩, h.1, h.2.2.1, ?_⟩
  rw [h.2.2.2.2]
  decide

/-- C8: `keyNotFound` is the only error kind; `GetExpires`, `SetExpire` and
`Refresh` return it exactly when the lookup finds no existing, unexpired
entry (the key is absent or its entry expired) and succeed otherwise;
`GetValue`, `Contains` and `Remove` never return an error for a missing or
expired key, yielding the normal negative result instead (`none`, `false`,
no change beyond the lookup's own lazy expiry). -/
theorem error_taxonomy (t : timedMap) (now : Int) (k : Nat) (d : Int) :
    (∀ e : TMError, e = TMError.keyNotFound) ∧
    ((get t now k).1 = none ↔
      lookupKey t.m k = none ∨ ∃ vw, lookupKey t.m k = some vw ∧ now > vw.exp) ∧
    ((get t now k).1 = none →
      (GetExpires t now k).1 = Except.error TMError.keyNotFound ∧
      (SetExpire t now k d).1 = Except.error TMError.keyNotFound ∧
      (Refresh t now k d).1 = Except.error TMError.keyNotFound ∧
      (GetValue t now k).1 = none ∧ (Contains t now k).1 = false ∧
      Remove t now k = (get t now k).2) ∧
    (∀ vw, (get t now k).1 = some vw →
      (GetExpires t now k).1 = Except.ok vw.exp ∧
      (SetExpire t now k d).1 = Except.ok () ∧
      (Refresh t now k d).1 = Except.ok ()) := by
  refine ⟨fun e => by cases e; rfl, ?_, ?_, ?_⟩
  · constructor
    · intro h
      cases hl : lookupKey t.m k with
      | none => exact Or.inl rfl
      | some vw =>
        by_cases he : now > vw.exp
        · exact Or.inr ⟨vw, rfl, he⟩
        · rw [get_of_live t now k vw hl he] at h
          simp at h
    · intro h
      rcases h with h | ⟨vw, hl, he⟩
      · rw [get_of_absent t now k h]
      · rw [get_of_expired t now k vw hl he]
  · intro h
    refine ⟨by rw [GetExpires_of_absent t now k h],
      by rw [SetExpire_of_absent t now k d h],
      by rw [Refresh_of_absent t now k d h], ?_, ?_, ?_⟩
    · cases hl : lookupKey t.m k with
      | none => rw [GetValue_of_absent t now k hl]
      | some vw =>
        by_cases he : now > vw.exp
        · rw [GetValue_of_expired t now k vw hl he]
        · rw [get_of_live t now k vw hl he] at h
          simp at h
    · unfold Contains
      rw [h]
      rfl
    · cases hl : lookupKey t.m k with
      | none => rw [Remove_of_absent t now k hl, get_of_absent t now k hl]
      | some vw =>
        by_cases he : now > vw.exp
        · rw [Remove_of_present t now k vw hl, get_of_expired t now k vw hl he]
        · rw [get_of_live t now k vw hl he] at h
          simp at h
  · intro vw h
    exact ⟨by rw [GetExpires_of_found t now k vw h],
      by rw [SetExpire_of_found t now k d vw h],
      by rw [Refresh_of_found t now k d vw h]⟩

/-- Witness for C8: on a key whose entry is expired, the three
expiry-manipulating operations all return `keyNotFound` while `GetValue`,
`Contains` and `Remove` return their normal negative results. -/
theorem error_taxonomy_witness :
    (GetExpires ⟨[(1, ⟨some 2, 0, some 3⟩)], 1, [], []⟩ 5 1).1 =
      Except.error TMError.keyNotFound ∧
    (SetExpire ⟨[(1, ⟨some 2, 0, some 3⟩)], 1, [], []⟩ 5 1 7).1 =
      Except.error TMError.keyNotFound ∧
    (Refresh ⟨[(1, ⟨some 2, 0, some 3⟩)], 1, [], []⟩ 5 1 7).1 =
      Except.error TMError.keyNotFound ∧
    (GetValue ⟨[(1, ⟨some 2, 0, some 3⟩)], 1, [], []⟩ 5 1).1 = none ∧
    (Contains ⟨[(1, ⟨some 2, 0, some 3⟩)], 1, [], []⟩ 5 1).1 = false := by
  have h := (error_taxonomy ⟨[(1, ⟨some 2, 0, some 3⟩)], 1, [], []⟩ 5 1 7).2.2.1
    (by decide)
  exact ⟨h.1, h.2.1, h.2.2.1, h.2.2.2.1, h.2.2.2.2.1⟩

/-- C4 (contradicted by the code): delivering the stop signal to
`cleanupCycle` stops the ticker — no further ticks fire — but Go's `break`
inside a `select` exits only the `select` statement, so the `for` loop does
not terminate (`loopAlive` stays `true`) and the deferred reset of
`cleanupRunning` never runs (`cleanupRunning` stays `true`), contradicting
the claim that after `Stop` returns the background loop has terminated and
the running flag is reset. -/
theorem stopCleaner_leaves_loop_alive :
    (cleanupCycleStep startCleanerState loopEvent.stop).tickerActive = false ∧
    (cleanupCycleStep startCleanerState loopEvent.stop).loopAlive = true ∧
    (cleanupCycleStep startCleanerState loopEvent.stop).cleanupRunning = true := by
  decide

/-- C9 counterexample: after removing an entry, the wrapper sitting in the
pool still holds the removed entry's value, expiry and callback — `remove`
puts it back without resetting any field, so "no entry sitting in the pool
still holds the removed entry's value or callback" is false. -/
theorem pool_not_reset_counterexample :
    (Remove ⟨[(1, ⟨some 42, 10, some 7⟩)], 1, [], []⟩ 0 1).pool =
      [⟨some 42, 10, some 7⟩] ∧
    (⟨some 42, 10, some 7⟩ : valueWrapper).val ≠ none ∧
    (⟨some 42, 10, some 7⟩ : valueWrapper).cb ≠ none := by
  decide

/-- C9 amended: wrappers are returned to the pool unreset — they retain the
removed entry's value, expiry and callback while in the pool — but every
wrapper acquired from the pool has all three fields overwritten by `Set`
before it is stored, so the entry that becomes reachable carries exactly the
new value, expiry and callback regardless of the pooled wrapper's old
contents. -/
theorem pooled_wrapper_overwritten (t t' : timedMap) (now now' : Int)
    (k k' : Nat) (v : Option Nat) (d : Int) (cb : Option Nat)
    (vw : valueWrapper) (h : lookupKey t.m k = some vw)
    (h' : lookupKey t'.m k' = none) :
    (Remove t now k).pool = t.pool ++ [vw] ∧
    lookupKey (Set t' now' k' v d cb).m k' = some ⟨v, now' + d, cb⟩ ∧
    (Set t' now' k' v d cb).pool = t'.pool.tail := by
  refine ⟨?_, ?_, ?_⟩
  · rw [Remove_of_present t now k vw h]
    rfl
  · rw [Set_of_absent t' now' k' v d cb h']
    exact lookupKey_storeKey_self t'.m k' _
  · rw [Set_of_absent t' now' k' v d cb h']

/-- Witness for C9 amended: a Set of an absent key over a pool holding a
stale wrapper installs exactly the new fields and consumes the pool head. -/
theorem pooled_wrapper_overwritten_witness :
    (Remove ⟨[(1, ⟨some 2, 10, some 3⟩)], 1, [], []⟩ 0 1).pool =
      [⟨some 2, 10, some 3⟩] ∧
    lookupKey (Set ⟨[], 0, [⟨some 2, 10, some 3⟩], []⟩ 4 9 (some 8) 6 none).m 9 =
      some ⟨some 8, 4 + 6, none⟩ ∧
    (Set ⟨[], 0, [⟨some 2, 10, some 3⟩], []⟩ 4 9 (some 8) 6 none).pool = [] := by
  have h := pooled_wrapper_overwritten ⟨[(1, ⟨some 2, 10, some 3⟩)], 1, [], []⟩
    ⟨[], 0, [⟨some 2, 10, some 3⟩], []⟩ 0 4 1 9 (some 8) 6 none
    ⟨some 2, 10, some 3⟩ (by decide) (by decide)
  exact ⟨h.1, h.2.1, h.2.2⟩

end Timedmap
